import Mathlib

set_option maxRecDepth 40000

/-!
Shallow embedding of `server/mcp_context_server.py` (class `ContextParser`).

Text is modelled as `List Char` (named `Str`); Python `str` operations used by
the source (`strip`, `split('\n')`, `split('\n', 1)`, `lower`, substring
containment `in`, `'\n'.join`) are embedded as executable functions on
`List Char`.  `re.split(r'^# ', content, flags=re.MULTILINE)` is embedded
line-wise: the text is split into its '\n'-separated lines and a new chunk
begins at every line that starts with the two characters "# " (the marker is
consumed).  The only difference from the character-level regex split is that
the newline immediately preceding a header belongs to the previous chunk in
Python; since every use of a chunk in the source either strips it or splits
off its first line and strips the remainder, the resulting section map is
identical, which is the object all claims are about.

The ordered mapping `self.sections` (a Python insertion-ordered dict) is
modelled as an association list with `dictInsert`: overwriting an existing key
keeps its position, a new key is appended.  Case mapping (`str.lower`) is
modelled with `Char.toLower`, which agrees with Python on ASCII.
-/

abbrev Str := List Char

/-- Python `str` whitespace, as used by `str.strip()` (ASCII range). -/
def isPySpace (c : Char) : Bool :=
  c == ' ' || c == '\t' || c == '\n' || c == '\r' || c == '\x0b' || c == '\x0c'

/-- Python `s.strip()`: drop leading and trailing whitespace. -/
def strip (s : Str) : Str :=
  ((s.dropWhile isPySpace).reverse.dropWhile isPySpace).reverse

/-- Python `s.lower()` (ASCII). -/
def lower (s : Str) : Str := s.map Char.toLower

/-- Does `needle` occur at the very start of `hay`? -/
def leadMatch : Str → Str → Bool
  | [], _ => true
  | _ :: _, [] => false
  | a :: as, b :: bs => a == b && leadMatch as bs

/-- Python `needle in hay`: contiguous substring containment. -/
def substrOf (needle : Str) : Str → Bool
  | [] => needle.isEmpty
  | c :: rest => leadMatch needle (c :: rest) || substrOf needle rest

/-- Python `s.split('\n')`: never empty, keeps empty pieces. -/
def splitLines : Str → List Str
  | [] => [[]]
  | c :: rest =>
    if c = '\n' then [] :: splitLines rest
    else
      match splitLines rest with
      | [] => [[c]]
      | l :: ls => (c :: l) :: ls

/-- Python `'\n'.join(ls)`; inverse of `splitLines`. -/
def joinLines : List Str → Str
  | [] => []
  | [l] => l
  | l :: l' :: ls => l ++ '\n' :: joinLines (l' :: ls)

/-- Python `s.split('\n', 1)`: first line, and the remainder if a newline exists. -/
def splitFirstLine : Str → Str × Option Str
  | [] => ([], none)
  | c :: rest =>
    if c = '\n' then ([], some rest)
    else
      let p := splitFirstLine rest
      (c :: p.1, p.2)

/-- A line that begins with the top-level header marker "# ". -/
def startsWithHash (l : Str) : Bool :=
  match l with
  | '#' :: ' ' :: _ => true
  | _ => false

/-- Chunking underlying `re.split(r'^# ', content, re.MULTILINE)`: the first
chunk is the lines before the first header; every header line starts a new
chunk whose first line is the header line with the marker "# " removed. -/
def chunkLines : List Str → List (List Str)
  | [] => [[]]
  | l :: ls =>
    match chunkLines ls with
    | [] => [[l]]
    | c :: cs =>
      if startsWithHash l then [] :: (l.drop 2 :: c) :: cs
      else (l :: c) :: cs

/-- The chunks of `re.split(r'^# ', content, re.MULTILINE)`, as strings. -/
def chunks (content : Str) : List Str :=
  (chunkLines (splitLines content)).map joinLines

/-- Whether the text contains a top-level header line. -/
def hasHeader (content : Str) : Bool :=
  (splitLines content).any startsWithHash

/-- Python ordered-dict assignment `d[k] = v`: overwrite in place if the key
exists (keeping its position), otherwise append. -/
def dictInsert : List (Str × Str) → Str → Str → List (Str × Str)
  | [], k, v => [(k, v)]
  | p :: rest, k, v =>
    if p.1 = k then (k, v) :: rest else p :: dictInsert rest k v

/-- Python `d.get(k)`: first (= only, on dict-built lists) binding of `k`. -/
def dictFind : List (Str × Str) → Str → Option Str
  | [], _ => none
  | p :: rest, k => if p.1 = k then some p.2 else dictFind rest k

/-- Fold a list of key/value assignments into an ordered dict. -/
def insertAll (m : List (Str × Str)) (es : List (Str × Str)) : List (Str × Str) :=
  es.foldl (fun m e => dictInsert m e.1 e.2) m

/-- Section title of a chunk: `lines[0].strip()` after `section.split('\n', 1)`. -/
def chunkTitle (c : Str) : Str := strip (splitFirstLine c).1

/-- Section body of a chunk: `lines[1].strip()` if the chunk has a newline,
otherwise the empty string. -/
def chunkBody (c : Str) : Str :=
  match (splitFirstLine c).2 with
  | none => []
  | some r => strip r

/-- One iteration of the parsing loop: `self.sections[title] = content_part.strip()`. -/
def insertChunk (m : List (Str × Str)) (c : Str) : List (Str × Str) :=
  dictInsert m (chunkTitle c) (chunkBody c)

/-- The section map built from successfully read raw text
(`ContextParser._load_and_parse`, parsing part). -/
def parseSections (content : Str) : List (Str × Str) :=
  match chunks content with
  | [] => [(("Documentation").data, strip content)]
  | [_] => [(("Documentation").data, strip content)]
  | first :: rest =>
    List.foldl insertChunk
      (if (strip first).isEmpty then []
       else [(("Introduction").data, strip first)])
      rest

/-- Outcome of the load step of `_load_and_parse`: the file-existence check,
a raised read exception (with its rendered message), or the raw text. -/
inductive LoadOutcome where
  | notFound (path : Str)
  | readError (msg : Str)
  | content (text : Str)

/-- Body of the synthetic "Error" section when the file does not exist.  Note
the source puts the resolved path only on stderr; the section body is fixed. -/
def notFoundBody : Str :=
  ("Documentation file not found. Please create context.md in the project root.").data

/-- Body of the synthetic "Error" section when reading raised an exception. -/
def readErrorBody (msg : Str) : Str :=
  ("Failed to load documentation: ").data ++ msg

/-- `ContextParser._load_and_parse`: the final value of `self.sections`. -/
def _load_and_parse : LoadOutcome → List (Str × Str)
  | .notFound _ => [(("Error").data, notFoundBody)]
  | .readError msg => [(("Error").data, readErrorBody msg)]
  | .content text => parseSections text

/-- The numbered title listing inside `get_overview` (`enumerate(..., 1)`). -/
def enumTitles : Nat → List (Str × Str) → Str
  | _, [] => []
  | i, p :: rest =>
    (Nat.repr i).data ++ '.' :: ' ' :: p.1 ++ '\n' :: enumTitles (i + 1) rest

/-- `ContextParser.get_overview`. -/
def get_overview (sections : List (Str × Str)) : Str :=
  match sections with
  | [] => ("No documentation sections available.").data
  | _ :: _ =>
    ("Available documentation sections:\n\n").data ++ enumTitles 1 sections

/-- Snippet for a title match: `f"Found in section title: {title}"`. -/
def titleSnippet (title : Str) : Str :=
  ("Found in section title: ").data ++ title

/-- Pass 1 of `search`: title matches, in map order. -/
def titleResults (q : Str) (sections : List (Str × Str)) : List (Str × Str) :=
  sections.filterMap fun p =>
    if substrOf q (lower p.1) then some (p.1, titleSnippet p.1) else none

/-- The stripped body lines containing the query (`matching_lines`). -/
def matchingLines (q : Str) (content : Str) : List Str :=
  (splitLines content).filterMap fun l =>
    if substrOf q (lower l) then some (strip l) else none

/-- Snippet for a body match: header plus the first 3 matching lines. -/
def bodySnippet (q : Str) (title content : Str) : Str :=
  ("From '").data ++ title ++ ("' section:\n").data ++
    joinLines ((matchingLines q content).take 3)

/-- Pass 2 of `search`: body matches, in map order. -/
def bodyResults (q : Str) (sections : List (Str × Str)) : List (Str × Str) :=
  sections.filterMap fun p =>
    if substrOf q (lower p.2) then
      if (matchingLines q p.2).isEmpty then none
      else some (p.1, bodySnippet q p.1 p.2)
    else none

/-- The combined result list of `search`: title pass then body pass, both
driven by the lowercased query. -/
def searchResults (sections : List (Str × Str)) (query : Str) : List (Str × Str) :=
  titleResults (lower query) sections ++ bodyResults (lower query) sections

/-- The numbered rendering of the result list (`f"{i}. {context}\n\n"`). -/
def formatResults : Nat → List (Str × Str) → Str
  | _, [] => []
  | i, p :: rest =>
    (Nat.repr i).data ++ '.' :: ' ' :: p.2 ++ '\n' :: '\n' :: formatResults (i + 1) rest

/-- Fixed heading of a non-empty search response. -/
def searchHeading (query : Str) : Str :=
  ("Search results for '").data ++ query ++ ("':\n\n").data

/-- Trailing line reporting omitted results. -/
def omittedNote (n : Nat) : Str :=
  ("... and ").data ++ (Nat.repr n).data ++ (" more results found.\n").data

/-- `ContextParser.search`. -/
def search (sections : List (Str × Str)) (query : Str) : Str :=
  match sections with
  | [] => ("No documentation available to search.").data
  | _ :: _ =>
    match searchResults sections query with
    | [] => ("No results found for '").data ++ query ++ ("' in the documentation.").data
    | _ :: _ =>
      searchHeading query ++ formatResults 1 ((searchResults sections query).take 5) ++
        (if 5 < (searchResults sections query).length then
          omittedNote ((searchResults sections query).length - 5)
         else [])

/-- The key sequence seen when keys are added first-occurrence-first:
what a Python dict does to its iteration order on assignment. -/
def addKey (ks : List Str) (k : Str) : List Str :=
  if k ∈ ks then ks else ks ++ [k]

/-- The value attached to the last occurrence of key `k` in an assignment list. -/
def lastAssoc (es : List (Str × Str)) (k : Str) : Option Str :=
  ((es.filter fun e => decide (e.1 = k)).getLast?).map Prod.snd

/-- Raw text with 8 sections whose bodies all contain "zz" and whose titles do
not (the result-cap scenario of the spec). -/
def eightText : Str :=
  ("# S1\nzz one\n# S2\nzz two\n# S3\nzz three\n# S4\nzz four\n# S5\nzz five\n# S6\nzz six\n# S7\nzz seven\n# S8\nzz eight").data

example : parseSections (("# A\nfoo\n# B\nbar").data) =
    [(("A").data, ("foo").data), (("B").data, ("bar").data)] := by decide

example : parseSections (("intro\n# A\nfoo").data) =
    [(("Introduction").data, ("intro").data), (("A").data, ("foo").data)] := by decide

example : parseSections (("plain text\nno header").data) =
    [(("Documentation").data, ("plain text\nno header").data)] := by decide

/-! ### Helper lemmas about the text primitives -/

theorem splitLines_ne_nil (s : Str) : splitLines s ≠ [] := by
  cases s with
  | nil => simp [splitLines]
  | cons c rest =>
    simp only [splitLines]
    split
    · simp
    · split <;> simp

theorem joinLines_splitLines (s : Str) : joinLines (splitLines s) = s := by
  induction s with
  | nil => rfl
  | cons c rest ih =>
    simp only [splitLines]
    by_cases hc : c = '\n'
    · rw [if_pos hc]
      cases h : splitLines rest with
      | nil => exact absurd h (splitLines_ne_nil rest)
      | cons l ls =>
        rw [h] at ih
        subst hc
        simp [joinLines, ih]
    · rw [if_neg hc]
      cases h : splitLines rest with
      | nil => exact absurd h (splitLines_ne_nil rest)
      | cons l ls =>
        rw [h] at ih
        cases ls with
        | nil => simp [joinLines] at ih ⊢; rw [ih]
        | cons l2 ls2 =>
          simp only [joinLines] at ih ⊢
          rw [← ih]
          simp

theorem mem_splitLines_no_nl {s l : Str} (h : l ∈ splitLines s) : '\n' ∉ l := by
  induction s generalizing l with
  | nil =>
    simp only [splitLines, List.mem_singleton] at h
    subst h; simp
  | cons c rest ih =>
    simp only [splitLines] at h
    by_cases hc : c = '\n'
    · rw [if_pos hc] at h
      rcases List.mem_cons.mp h with h1 | h2
      · subst h1; simp
      · exact ih h2
    · rw [if_neg hc] at h
      cases hsr : splitLines rest with
      | nil => exact absurd hsr (splitLines_ne_nil rest)
      | cons l0 ls =>
        rw [hsr] at h
        rcases List.mem_cons.mp h with h1 | h2
        · subst h1
          intro hmem
          rcases List.mem_cons.mp hmem with h3 | h4
          · exact hc h3.symm
          · exact ih (l := l0) (by rw [hsr]; exact List.mem_cons_self l0 ls) h4
        · exact ih (by rw [hsr]; exact List.mem_cons_of_mem _ h2)

theorem splitFirstLine_no_nl {s : Str} (h : '\n' ∉ s) : splitFirstLine s = (s, none) := by
  induction s with
  | nil => rfl
  | cons c rest ih =>
    have hc : ¬ (c = '\n') := fun e => h (by rw [e]; exact List.mem_cons_self _ _)
    have hr : '\n' ∉ rest := fun hm => h (List.mem_cons_of_mem _ hm)
    simp [splitFirstLine, hc, ih hr]

theorem splitFirstLine_append {a : Str} (b : Str) (h : '\n' ∉ a) :
    splitFirstLine (a ++ '\n' :: b) = (a, some b) := by
  induction a with
  | nil => simp [splitFirstLine]
  | cons c rest ih =>
    have hc : ¬ (c = '\n') := fun e => h (by rw [e]; exact List.mem_cons_self _ _)
    have hr : '\n' ∉ rest := fun hm => h (List.mem_cons_of_mem _ hm)
    simp [splitFirstLine, hc, ih hr]

theorem joinLines_cons (l : Str) {ls : List Str} (h : ls ≠ []) :
    joinLines (l :: ls) = l ++ '\n' :: joinLines ls := by
  cases ls with
  | nil => exact absurd rfl h
  | cons a as => rfl

theorem chunkBody_single {hd : Str} (h : '\n' ∉ hd) : chunkBody (joinLines [hd]) = [] := by
  simp [chunkBody, joinLines, splitFirstLine_no_nl h]

theorem chunkBody_cons {hd : Str} (a : Str) (as : List Str) (h : '\n' ∉ hd) :
    chunkBody (joinLines (hd :: a :: as)) = strip (joinLines (a :: as)) := by
  rw [joinLines_cons _ (by simp)]
  simp [chunkBody, splitFirstLine_append _ h]

/-! ### Lemmas about `strip` and substring witnesses -/

theorem sub_trans {a b c : Str} (h1 : ∃ u w, b = u ++ a ++ w)
    (h2 : ∃ u w, c = u ++ b ++ w) : ∃ u w, c = u ++ a ++ w := by
  obtain ⟨u1, w1, e1⟩ := h1
  obtain ⟨u2, w2, e2⟩ := h2
  exact ⟨u2 ++ u1, w1 ++ w2, by rw [e2, e1]; simp [List.append_assoc]⟩

theorem strip_sub (s : Str) : ∃ u w, s = u ++ strip s ++ w := by
  have hu : s = s.takeWhile isPySpace ++ s.dropWhile isPySpace :=
    (List.takeWhile_append_dropWhile isPySpace _).symm
  have h2 : (s.dropWhile isPySpace).reverse =
      (s.dropWhile isPySpace).reverse.takeWhile isPySpace ++
        (s.dropWhile isPySpace).reverse.dropWhile isPySpace :=
    (List.takeWhile_append_dropWhile isPySpace _).symm
  have h3 : s.dropWhile isPySpace =
      strip s ++ ((s.dropWhile isPySpace).reverse.takeWhile isPySpace).reverse := by
    have := congrArg List.reverse h2
    rw [List.reverse_reverse, List.reverse_append] at this
    exact this
  refine ⟨s.takeWhile isPySpace,
    ((s.dropWhile isPySpace).reverse.takeWhile isPySpace).reverse, ?_⟩
  rw [List.append_assoc, ← h3, ← hu]

theorem dropWhile_head_false {p : Char → Bool} {l : Str} {c : Char} {w : Str}
    (h : l.dropWhile p = c :: w) : p c = false := by
  induction l with
  | nil => simp [List.dropWhile] at h
  | cons a as ih =>
    rw [List.dropWhile_cons] at h
    by_cases hp : p a
    · rw [if_pos hp] at h; exact ih h
    · rw [if_neg hp] at h
      injection h with h1 _
      subst h1
      simpa using hp

theorem dropWhile_idem (p : Char → Bool) (l : Str) :
    (l.dropWhile p).dropWhile p = l.dropWhile p := by
  induction l with
  | nil => rfl
  | cons a as ih =>
    rw [List.dropWhile_cons]
    by_cases hp : p a
    · rw [if_pos hp]; exact ih
    · rw [if_neg hp, List.dropWhile_cons, if_neg hp]

theorem strip_idem (s : Str) : strip (strip s) = strip s := by
  have hB : (strip s).reverse.dropWhile isPySpace = (strip s).reverse := by
    rw [strip, List.reverse_reverse]
    exact dropWhile_idem _ _
  have hA : (strip s).dropWhile isPySpace = strip s := by
    cases hrc : strip s with
    | nil => rfl
    | cons c w =>
      have h2 : (s.dropWhile isPySpace).reverse =
          (s.dropWhile isPySpace).reverse.takeWhile isPySpace ++
            (s.dropWhile isPySpace).reverse.dropWhile isPySpace :=
        (List.takeWhile_append_dropWhile isPySpace _).symm
      have h3 : s.dropWhile isPySpace =
          strip s ++ ((s.dropWhile isPySpace).reverse.takeWhile isPySpace).reverse := by
        have := congrArg List.reverse h2
        rw [List.reverse_reverse, List.reverse_append] at this
        exact this
      rw [hrc] at h3
      have hpc : isPySpace c = false := dropWhile_head_false h3
      rw [List.dropWhile_cons, if_neg (by simp [hpc])]
  conv_lhs => rw [strip, hA, hB, List.reverse_reverse]

theorem strip_sub_of_sub {v t : Str} (h : ∃ u w, t = u ++ v ++ w) :
    ∃ u w, t = u ++ strip v ++ w :=
  sub_trans (strip_sub v) h

/-! ### Lemmas about the header chunking -/

theorem chunkLines_ne_nil (ls : List Str) : chunkLines ls ≠ [] := by
  cases ls with
  | nil => simp [chunkLines]
  | cons l ls =>
    simp only [chunkLines]
    split
    · simp
    · split <;> simp

theorem chunkLines_headD (ls : List Str) :
    (chunkLines ls).headD [] = ls.takeWhile (fun l => !startsWithHash l) := by
  induction ls with
  | nil => rfl
  | cons l ls ih =>
    cases hch : chunkLines ls with
    | nil => exact absurd hch (chunkLines_ne_nil ls)
    | cons c cs =>
      rw [hch] at ih
      by_cases hl : startsWithHash l
      · simp only [chunkLines, hch]
        rw [if_pos hl]
        simp [List.takeWhile_cons, hl]
      · simp only [chunkLines, hch]
        rw [if_neg hl]
        simp only [List.headD_cons, List.takeWhile_cons]
        simp only [List.headD_cons] at ih
        simp [hl, ih]

theorem chunkLines_no_header {ls : List Str} (h : ∀ l ∈ ls, startsWithHash l = false) :
    chunkLines ls = [ls] := by
  induction ls with
  | nil => rfl
  | cons l ls ih =>
    have hrec := ih (fun x hx => h x (List.mem_cons_of_mem _ hx))
    simp only [chunkLines, hrec]
    rw [if_neg (by simp [h l (List.mem_cons_self _ _)])]

theorem chunkLines_with_header {ls : List Str} (h : ∃ l ∈ ls, startsWithHash l = true) :
    ∃ c d cs, chunkLines ls = c :: d :: cs := by
  induction ls with
  | nil => simp at h
  | cons l ls ih =>
    by_cases hl : startsWithHash l
    · cases hch : chunkLines ls with
      | nil => exact absurd hch (chunkLines_ne_nil ls)
      | cons c cs =>
        refine ⟨[], l.drop 2 :: c, cs, ?_⟩
        simp only [chunkLines, hch]
        rw [if_pos hl]
    · obtain ⟨l0, hl0, hsh⟩ := h
      rcases List.mem_cons.mp hl0 with h1 | h2
      · rw [h1] at hsh
        exact absurd hsh (by simpa using hl)
      · obtain ⟨c, d, cs, hch⟩ := ih ⟨l0, h2, hsh⟩
        refine ⟨l :: c, d, cs, ?_⟩
        simp only [chunkLines, hch]
        rw [if_neg hl]

theorem chunkLines_spec (ls : List Str) :
    ∃ c cs, chunkLines ls = c :: cs ∧
      (∃ w, joinLines ls = joinLines c ++ w) ∧
      (∀ d ∈ cs, ∃ hd tl, d = hd :: tl ∧ (∃ l0 ∈ ls, hd = l0.drop 2) ∧
        ∃ u w, joinLines ls = u ++ joinLines tl ++ w) := by
  induction ls with
  | nil => exact ⟨[], [], rfl, ⟨[], rfl⟩, by simp⟩
  | cons l ls ih =>
    obtain ⟨c, cs, hch, ⟨w0, hpre⟩, hrest⟩ := ih
    by_cases hh : startsWithHash l
    · refine ⟨[], (l.drop 2 :: c) :: cs, ?_, ⟨joinLines (l :: ls), by simp [joinLines]⟩, ?_⟩
      · simp only [chunkLines, hch]
        rw [if_pos hh]
      · intro d hd
        rcases List.mem_cons.mp hd with h1 | h2
        · subst h1
          refine ⟨l.drop 2, c, rfl, ⟨l, List.mem_cons_self _ _, rfl⟩, ?_⟩
          cases hls : ls with
          | nil =>
            subst hls
            have : c = [] := by
              have : chunkLines ([] : List Str) = [[]] := rfl
              rw [this] at hch
              injection hch with h3 _
              exact h3.symm
            subst this
            exact ⟨l, [], by simp [joinLines]⟩
          | cons a as =>
            subst hls
            refine ⟨l ++ ['\n'], w0, ?_⟩
            rw [joinLines_cons _ (by simp), hpre]
            simp [List.append_assoc]
        · cases hls : ls with
          | nil =>
            subst hls
            have : cs = [] := by
              have h4 : chunkLines ([] : List Str) = [[]] := rfl
              rw [h4] at hch
              injection hch with _ h5
              exact h5.symm
            subst this
            cases h2
          | cons a as =>
            subst hls
            obtain ⟨hd0, tl, hdeq, ⟨l0, hl0, hl0e⟩, u, w, hsub⟩ := hrest d h2
            refine ⟨hd0, tl, hdeq, ⟨l0, List.mem_cons_of_mem _ hl0, hl0e⟩,
              l ++ '\n' :: u, w, ?_⟩
            rw [joinLines_cons _ (by simp), hsub]
            simp [List.append_assoc]
    · refine ⟨l :: c, cs, ?_, ?_, ?_⟩
      · simp only [chunkLines, hch]
        rw [if_neg hh]
      · cases hls : ls with
        | nil =>
          subst hls
          have : c = [] := by
            have h4 : chunkLines ([] : List Str) = [[]] := rfl
            rw [h4] at hch
            injection hch with h3 _
            exact h3.symm
          subst this
          exact ⟨[], by simp [joinLines]⟩
        | cons a as =>
          subst hls
          cases c with
          | nil =>
            refine ⟨'\n' :: joinLines (a :: as), ?_⟩
            rw [joinLines_cons _ (by simp)]
            simp [joinLines]
          | cons c1 cr =>
            refine ⟨w0, ?_⟩
            have e1 : joinLines (l :: a :: as) = l ++ '\n' :: joinLines (a :: as) :=
              joinLines_cons _ (by simp)
            have e2 : joinLines (l :: c1 :: cr) = l ++ '\n' :: joinLines (c1 :: cr) :=
              joinLines_cons _ (by simp)
            rw [e1, e2, hpre]
            simp [List.append_assoc]
      · intro d hd
        cases hls : ls with
        | nil =>
          subst hls
          have : cs = [] := by
            have h4 : chunkLines ([] : List Str) = [[]] := rfl
            rw [h4] at hch
            injection hch with _ h5
            exact h5.symm
          subst this
          cases hd
        | cons a as =>
          subst hls
          obtain ⟨hd0, tl, hdeq, ⟨l0, hl0, hl0e⟩, u, w, hsub⟩ := hrest d hd
          refine ⟨hd0, tl, hdeq, ⟨l0, List.mem_cons_of_mem _ hl0, hl0e⟩,
            l ++ '\n' :: u, w, ?_⟩
          rw [joinLines_cons _ (by simp), hsub]
          simp [List.append_assoc]

/-! ### Lemmas about the ordered-dict operations -/

theorem mem_dictInsert {m : List (Str × Str)} {k v : Str} {kv : Str × Str}
    (h : kv ∈ dictInsert m k v) : kv ∈ m ∨ kv = (k, v) := by
  induction m with
  | nil =>
    simp only [dictInsert, List.mem_singleton] at h
    exact Or.inr h
  | cons p rest ih =>
    simp only [dictInsert] at h
    by_cases hk : p.1 = k
    · rw [if_pos hk] at h
      rcases List.mem_cons.mp h with h1 | h2
      · exact Or.inr h1
      · exact Or.inl (List.mem_cons_of_mem _ h2)
    · rw [if_neg hk] at h
      rcases List.mem_cons.mp h with h1 | h2
      · exact Or.inl (h1 ▸ List.mem_cons_self _ _)
      · rcases ih h2 with h3 | h4
        · exact Or.inl (List.mem_cons_of_mem _ h3)
        · exact Or.inr h4

theorem dictInsert_ne_nil (m : List (Str × Str)) (k v : Str) : dictInsert m k v ≠ [] := by
  cases m with
  | nil => simp [dictInsert]
  | cons p rest =>
    simp only [dictInsert]
    split <;> simp

theorem dictFind_dictInsert_self (m : List (Str × Str)) (k v : Str) :
    dictFind (dictInsert m k v) k = some v := by
  induction m with
  | nil => simp [dictInsert, dictFind]
  | cons p rest ih =>
    simp only [dictInsert]
    by_cases hp : p.1 = k
    · rw [if_pos hp]; simp [dictFind]
    · rw [if_neg hp]
      simp only [dictFind]
      rw [if_neg hp]
      exact ih

theorem dictFind_dictInsert_ne (m : List (Str × Str)) {k k' : Str} (v : Str) (h : k' ≠ k) :
    dictFind (dictInsert m k v) k' = dictFind m k' := by
  induction m with
  | nil =>
    simp only [dictInsert, dictFind]
    rw [if_neg (fun e => h e.symm)]
  | cons p rest ih =>
    simp only [dictInsert]
    by_cases hp : p.1 = k
    · rw [if_pos hp]
      simp only [dictFind]
      rw [if_neg (fun e => h e.symm), if_neg (by rw [hp]; exact fun e => h e.symm)]
    · rw [if_neg hp]
      simp only [dictFind]
      by_cases hq : p.1 = k'
      · rw [if_pos hq, if_pos hq]
      · rw [if_neg hq, if_neg hq]
        exact ih

theorem dictInsert_keys (m : List (Str × Str)) (k v : Str) :
    (dictInsert m k v).map Prod.fst = addKey (m.map Prod.fst) k := by
  induction m with
  | nil => simp [dictInsert, addKey]
  | cons p rest ih =>
    simp only [dictInsert]
    by_cases hp : p.1 = k
    · rw [if_pos hp]
      simp only [List.map_cons, addKey]
      rw [if_pos (by rw [hp]; exact List.mem_cons_self _ _), hp]
    · rw [if_neg hp]
      simp only [List.map_cons, ih, addKey]
      by_cases hk : k ∈ rest.map Prod.fst
      · rw [if_pos hk, if_pos (List.mem_cons_of_mem _ hk)]
      · rw [if_neg hk, if_neg (by
          intro hc
          rcases List.mem_cons.mp hc with h1 | h2
          · exact hp h1.symm
          · exact hk h2)]
        simp

theorem dictInsert_not_mem_keys {m : List (Str × Str)} {k k' v : Str}
    (h : k ∉ m.map Prod.fst) (hne : k ≠ k') :
    k ∉ (dictInsert m k' v).map Prod.fst := by
  rw [dictInsert_keys, addKey]
  by_cases hk : k' ∈ m.map Prod.fst
  · rw [if_pos hk]; exact h
  · rw [if_neg hk]
    intro hc
    rcases List.mem_append.mp hc with h1 | h2
    · exact h h1
    · exact hne (List.mem_singleton.mp h2)

theorem foldl_insertChunk_head (cs : List Str) :
    ∀ (k v : Str) (r : List (Str × Str)), (∀ e ∈ cs, chunkTitle e ≠ k) →
      ∃ r', List.foldl insertChunk ((k, v) :: r) cs = (k, v) :: r' := by
  induction cs with
  | nil => exact fun k v r _ => ⟨r, rfl⟩
  | cons e es ih =>
    intro k v r hne
    have h1 : insertChunk ((k, v) :: r) e =
        (k, v) :: dictInsert r (chunkTitle e) (chunkBody e) := by
      simp only [insertChunk, dictInsert]
      rw [if_neg (Ne.symm (hne e (List.mem_cons_self _ _)))]
    rw [List.foldl_cons, h1]
    exact ih k v _ (fun x hx => hne x (List.mem_cons_of_mem _ hx))

theorem foldl_insertChunk_not_mem (cs : List Str) :
    ∀ (m : List (Str × Str)) (k : Str), k ∉ m.map Prod.fst →
      (∀ e ∈ cs, chunkTitle e ≠ k) →
      k ∉ (List.foldl insertChunk m cs).map Prod.fst := by
  induction cs with
  | nil => exact fun m k hm _ => hm
  | cons e es ih =>
    intro m k hm hne
    exact ih _ k
      (dictInsert_not_mem_keys hm (Ne.symm (hne e (List.mem_cons_self _ _))))
      (fun x hx => hne x (List.mem_cons_of_mem _ hx))

theorem foldl_insertChunk_pres (P : Str → Prop) (cs : List Str) :
    ∀ m, (∀ kv ∈ m, P kv.2) → (∀ e ∈ cs, P (chunkBody e)) →
      ∀ kv ∈ List.foldl insertChunk m cs, P kv.2 := by
  induction cs with
  | nil => exact fun m hm _ kv hkv => hm kv hkv
  | cons e es ih =>
    intro m hm he kv hkv
    refine ih _ ?_ (fun x hx => he x (List.mem_cons_of_mem _ hx)) kv hkv
    intro x hx
    rcases mem_dictInsert hx with h1 | h2
    · exact hm x h1
    · rw [h2]
      exact he e (List.mem_cons_self _ _)

theorem foldl_insertChunk_ne_nil (cs : List Str) :
    ∀ m, cs ≠ [] → List.foldl insertChunk m cs ≠ [] := by
  induction cs with
  | nil => exact fun _ h => absurd rfl h
  | cons e es ih =>
    intro m _
    cases es with
    | nil => exact dictInsert_ne_nil _ _ _
    | cons e2 es2 => exact ih _ (by simp)

theorem foldl_insertChunk_eq_insertAll (cs : List Str) :
    ∀ m, List.foldl insertChunk m cs =
      insertAll m (cs.map fun c => (chunkTitle c, chunkBody c)) := by
  induction cs with
  | nil => exact fun _ => rfl
  | cons c cs ih =>
    intro m
    simp only [List.foldl_cons, List.map_cons]
    rw [ih]
    rfl

/-! ### Parse-level lemmas -/

theorem parse_no_header {t : Str} (h : hasHeader t = false) :
    parseSections t = [(("Documentation").data, strip t)] := by
  have h2 : ∀ l ∈ splitLines t, startsWithHash l = false := by
    intro l hl
    cases hsl : startsWithHash l with
    | false => rfl
    | true =>
      have : hasHeader t = true := List.any_eq_true.mpr ⟨l, hl, hsl⟩
      rw [h] at this
      cases this
  have h3 : chunks t = [t] := by
    rw [chunks, chunkLines_no_header h2]
    simp [joinLines_splitLines]
  simp only [parseSections]
  rw [h3]

theorem parse_with_header_foldl (t : Str) (h : hasHeader t = true) :
    ∃ first rest, chunks t = first :: rest ∧ rest ≠ [] ∧
      parseSections t =
        List.foldl insertChunk
          (if (strip first).isEmpty then []
           else [(("Introduction").data, strip first)])
          rest := by
  obtain ⟨c, d, cs, hch⟩ :=
    chunkLines_with_header (List.any_eq_true.mp (by rw [hasHeader] at h; exact h))
  have hcc : chunks t = joinLines c :: joinLines d :: List.map joinLines cs := by
    rw [chunks, hch]
    rfl
  refine ⟨joinLines c, joinLines d :: List.map joinLines cs, hcc, by simp, ?_⟩
  simp only [parseSections]
  rw [hcc]

theorem parseSections_ne_nil (t : Str) : parseSections t ≠ [] := by
  cases hh : hasHeader t with
  | false => rw [parse_no_header hh]; simp
  | true =>
    obtain ⟨first, rest, _, hne, hp⟩ := parse_with_header_foldl t hh
    rw [hp]
    exact foldl_insertChunk_ne_nil _ _ hne

theorem parse_bodies (t : Str) :
    ∀ kv ∈ parseSections t, (∃ u w, t = u ++ kv.2 ++ w) ∧ strip kv.2 = kv.2 := by
  obtain ⟨c, cs, hch, hpre, hrest⟩ := chunkLines_spec (splitLines t)
  rw [joinLines_splitLines t] at hpre hrest
  intro kv hkv
  rcases cs with _ | ⟨d, ds⟩
  · have hcc : chunks t = [joinLines c] := by rw [chunks, hch]; rfl
    have hp : parseSections t = [(("Documentation").data, strip t)] := by
      simp only [parseSections]
      rw [hcc]
    rw [hp] at hkv
    have hkv2 := List.mem_singleton.mp hkv
    rw [hkv2]
    exact ⟨strip_sub t, strip_idem t⟩
  · have hcc : chunks t = joinLines c :: joinLines d :: List.map joinLines ds := by
      rw [chunks, hch]
      rfl
    have hp : parseSections t =
        List.foldl insertChunk
          (if (strip (joinLines c)).isEmpty then []
           else [(("Introduction").data, strip (joinLines c))])
          (joinLines d :: List.map joinLines ds) := by
      simp only [parseSections]
      rw [hcc]
    rw [hp] at hkv
    refine foldl_insertChunk_pres
      (fun v => (∃ u w, t = u ++ v ++ w) ∧ strip v = v) _ _ ?_ ?_ kv hkv
    · intro x hx
      by_cases he : (strip (joinLines c)).isEmpty
      · rw [if_pos he] at hx
        cases hx
      · rw [if_neg he] at hx
        rw [List.mem_singleton.mp hx]
        refine ⟨strip_sub_of_sub ?_, strip_idem _⟩
        obtain ⟨w0, hw0⟩ := hpre
        exact ⟨[], w0, by simpa using hw0⟩
    · intro e he
      have hmap : e ∈ List.map joinLines (d :: ds) := by
        simpa using he
      obtain ⟨d', hd', hde⟩ := List.mem_map.mp hmap
      obtain ⟨hd0, tl, hdeq, ⟨l0, hl0, hl0e⟩, u, w, hsub⟩ := hrest d' hd'
      have hnl : '\n' ∉ hd0 := by
        rw [hl0e]
        intro hm
        exact mem_splitLines_no_nl hl0 (List.mem_of_mem_drop hm)
      subst hde
      rw [hdeq]
      rcases tl with _ | ⟨a, as⟩
      · rw [chunkBody_single hnl]
        exact ⟨⟨t, [], by simp⟩, rfl⟩
      · rw [chunkBody_cons a as hnl]
        exact ⟨strip_sub_of_sub ⟨u, w, hsub⟩, strip_idem _⟩

/-! ### Lemmas about the two search passes -/

theorem titleResults_eq (q : Str) (s : List (Str × Str)) :
    titleResults q s =
      (s.filter fun p => substrOf q (lower p.1)).map fun p => (p.1, titleSnippet p.1) := by
  induction s with
  | nil => rfl
  | cons p rest ih =>
    simp only [titleResults, List.filterMap_cons, List.filter_cons] at ih ⊢
    by_cases hp : substrOf q (lower p.1)
    · simp [hp, ih]
    · simp only [Bool.not_eq_true] at hp
      simp [hp, ih]

theorem bodyResults_eq (q : Str) (s : List (Str × Str)) :
    bodyResults q s =
      (s.filter fun p => substrOf q (lower p.2) && !(matchingLines q p.2).isEmpty).map
        fun p => (p.1, bodySnippet q p.1 p.2) := by
  induction s with
  | nil => rfl
  | cons p rest ih =>
    by_cases h1 : substrOf q (lower p.2)
    · by_cases h2 : (matchingLines q p.2).isEmpty
      · have e1 : bodyResults q (p :: rest) = bodyResults q rest :=
          List.filterMap_cons_none (by simp [h1, h2])
        rw [e1, List.filter_cons_of_neg (by simp [h1, h2]), ih]
      · have e1 : bodyResults q (p :: rest) =
            (p.1, bodySnippet q p.1 p.2) :: bodyResults q rest :=
          List.filterMap_cons_some (by simp [h1, h2])
        rw [e1, List.filter_cons_of_pos (by simp [h1, h2]), List.map_cons, ih]
    · have e1 : bodyResults q (p :: rest) = bodyResults q rest :=
        List.filterMap_cons_none (by simp [h1])
      rw [e1, List.filter_cons_of_neg (by simp [h1]), ih]

/-! ### Lemmas about `insertAll` (last-write-wins, first-position order) -/

theorem dictFind_insertAll (es : List (Str × Str)) :
    ∀ (m : List (Str × Str)) (k : Str),
      dictFind (insertAll m es) k =
        match lastAssoc es k with
        | some v => some v
        | none => dictFind m k := by
  induction es with
  | nil =>
    intro m k
    simp [insertAll, lastAssoc]
  | cons e es ih =>
    intro m k
    have step : insertAll m (e :: es) = insertAll (dictInsert m e.1 e.2) es := rfl
    rw [step, ih]
    by_cases he : e.1 = k
    · cases hf : (es.filter fun x => decide (x.1 = k)).getLast? with
      | none =>
        have hfe : es.filter (fun x => decide (x.1 = k)) = [] :=
          List.getLast?_eq_none_iff.mp hf
        have h1 : lastAssoc es k = none := by simp [lastAssoc, hf]
        have h2 : lastAssoc (e :: es) k = some e.2 := by
          rw [lastAssoc, List.filter_cons_of_pos (by simp [he]), hfe]
          rfl
        rw [h1, h2]
        rw [he]
        exact dictFind_dictInsert_self m k e.2
      | some a =>
        have h1 : lastAssoc es k = some a.2 := by simp [lastAssoc, hf]
        have h2 : lastAssoc (e :: es) k = some a.2 := by
          cases hc : es.filter fun x => decide (x.1 = k) with
          | nil => rw [hc] at hf; simp at hf
          | cons b bs =>
            rw [lastAssoc, List.filter_cons_of_pos (by simp [he]), hc]
            rw [hc] at hf
            rw [List.getLast?_cons_cons, hf]
            rfl
        rw [h1, h2]
    · have h2 : lastAssoc (e :: es) k = lastAssoc es k := by
        rw [lastAssoc, List.filter_cons_of_neg (by simp [he]), lastAssoc]
      rw [h2]
      cases lastAssoc es k with
      | some v => rfl
      | none => exact dictFind_dictInsert_ne m e.2 (fun hc => he hc.symm)

theorem insertAll_keys (es : List (Str × Str)) :
    ∀ m, (insertAll m es).map Prod.fst =
      List.foldl addKey (m.map Prod.fst) (es.map Prod.fst) := by
  induction es with
  | nil => exact fun _ => rfl
  | cons e es ih =>
    intro m
    have step : insertAll m (e :: es) = insertAll (dictInsert m e.1 e.2) es := rfl
    rw [step, ih, List.map_cons, List.foldl_cons, dictInsert_keys]

/-! ### Generic inequality helpers for rendered strings -/

theorem take_ne_imp_ne (n : Nat) (xs ys : Str) (h : xs.take n ≠ ys.take n) : xs ≠ ys :=
  fun e => h (by rw [e])

/-! ### Claims -/

/-- Claim C1, counterexample: for the nonexistent location "/tmp/missing.md",
the single "Error" section's body does not mention the resolved path at all
(the body is the fixed not-found message; the path goes only to stderr). -/
theorem C1_counterexample :
    _load_and_parse (LoadOutcome.notFound (("/tmp/missing.md").data)) =
      [(("Error").data, notFoundBody)] ∧
    substrOf (("/tmp/missing.md").data) notFoundBody = false := by decide

/-- Claim C1 (amended): for every nonexistent file-system location, construction
yields a section map with exactly one entry titled "Error" whose body is the
fixed not-found message (which names the default file `context.md` but not the
resolved path), and `get_overview` then reports exactly one section. -/
theorem C1_error_section (path : Str) :
    _load_and_parse (LoadOutcome.notFound path) = [(("Error").data, notFoundBody)] ∧
    get_overview (_load_and_parse (LoadOutcome.notFound path)) =
      ("Available documentation sections:\n\n1. Error\n").data :=
  ⟨rfl, rfl⟩

/-- Claim C2, counterexample: against the section map built from a document
containing "Foo bar", `search("FOO")` and `search("foo")` do NOT return equal
strings — the response echoes the query verbatim in its heading. -/
theorem C2_counterexample :
    search (parseSections (("Foo bar").data)) (("FOO").data) ≠
      search (parseSections (("Foo bar").data)) (("foo").data) := by decide

/-- Claim C2 (amended): matching is case-insensitive substring containment —
both query and candidate are lowercased before comparing — so any two queries
with the same lowercasing (such as "FOO" and "foo") produce the same result
list; only the verbatim query echoed in the rendered response can differ. -/
theorem C2_case_insensitive (s : List (Str × Str)) (q1 q2 : Str)
    (h : lower q1 = lower q2) :
    searchResults s q1 = searchResults s q2 := by
  simp only [searchResults, h]

/-- Claim C2, witness: the amended theorem applied to the "Foo bar" document
and the queries "FOO" and "foo". -/
theorem C2_case_insensitive_witness :
    searchResults (parseSections (("Foo bar").data)) (("FOO").data) =
      searchResults (parseSections (("Foo bar").data)) (("foo").data) :=
  C2_case_insensitive (parseSections (("Foo bar").data)) (("FOO").data)
    (("foo").data) (by decide)

/-- Claim C3: whenever the combined result list is non-empty, the response is
the heading followed by a 1-indexed numbered listing of at most the first 5
results, with a trailing line stating the number of omitted results exactly
when more than 5 exist; and the 8-section document whose bodies all contain
"zz" (titles do not) yields exactly entries 1..5 plus a "3 more" note. -/
theorem C3_result_cap :
    (∀ s q, searchResults s q ≠ [] →
      search s q = searchHeading q ++ formatResults 1 ((searchResults s q).take 5) ++
        (if 5 < (searchResults s q).length then
          omittedNote ((searchResults s q).length - 5)
         else [])) ∧
    search (parseSections eightText) (("zz").data) =
      ("Search results for 'zz':\n\n1. From 'S1' section:\nzz one\n\n2. From 'S2' section:\nzz two\n\n3. From 'S3' section:\nzz three\n\n4. From 'S4' section:\nzz four\n\n5. From 'S5' section:\nzz five\n\n... and 3 more results found.\n").data := by
  constructor
  · intro s q h
    cases s with
    | nil => exact absurd rfl h
    | cons p rest =>
      simp only [search]
      split
      · next heq => exact absurd heq h
      · rfl
  · decide

/-- Claim C3, witness: the cap equation applied to the 8-section document. -/
theorem C3_result_cap_witness :
    search (parseSections eightText) (("zz").data) =
      searchHeading (("zz").data) ++
        formatResults 1 ((searchResults (parseSections eightText) (("zz").data)).take 5) ++
        (if 5 < (searchResults (parseSections eightText) (("zz").data)).length then
          omittedNote ((searchResults (parseSections eightText) (("zz").data)).length - 5)
         else []) :=
  C3_result_cap.1 (parseSections eightText) (("zz").data) (by decide)

/-- Claim C4: building the section map from "# A\nfoo\n# B\nbar" yields exactly
the ordered map {"A": "foo", "B": "bar"}, and the consumed "# " marker occurs
in no title and no body. -/
theorem C4_segmentation :
    parseSections (("# A\nfoo\n# B\nbar").data) =
      [(("A").data, ("foo").data), (("B").data, ("bar").data)] ∧
    ((parseSections (("# A\nfoo\n# B\nbar").data)).map fun p =>
      substrOf (("# ").data) p.1 || substrOf (("# ").data) p.2) = [false, false] := by
  decide

/-- Claim C5, counterexample: the text "# Introduction\nbody" has a header, its
pre-header text is empty after trimming, and yet the resulting map contains a
section titled "Introduction" — so "a section titled Introduction exists
exactly when the pre-header text is non-empty after trimming" is false. -/
theorem C5_counterexample :
    hasHeader (("# Introduction\nbody").data) = true ∧
    strip ((chunks (("# Introduction\nbody").data)).headD []) = [] ∧
    parseSections (("# Introduction\nbody").data) =
      [(("Introduction").data, ("body").data)] := by decide

/-- Claim C5 (amended): provided no chunk introduced by a header is itself
titled "Introduction", the text preceding the first header becomes the leading
section titled "Introduction" exactly when it is non-empty after trimming; and
for text with no top-level header line the result is the single section
"Documentation" holding the whole trimmed text. -/
theorem C5_intro_documentation :
    (∀ t, hasHeader t = true →
      (∀ e ∈ (chunks t).tail, chunkTitle e ≠ ("Introduction").data) →
      ((strip ((chunks t).headD []) ≠ [] →
        (parseSections t).head? =
          some ((("Introduction").data : Str), strip ((chunks t).headD []))) ∧
       (strip ((chunks t).headD []) = [] →
        (("Introduction").data : Str) ∉ (parseSections t).map Prod.fst))) ∧
    (∀ t, hasHeader t = false →
      parseSections t = [(("Documentation").data, strip t)]) := by
  constructor
  · intro t ht hno
    obtain ⟨first, rest, hcc, hrne, hp⟩ := parse_with_header_foldl t ht
    have hhead : (chunks t).headD [] = first := by rw [hcc]; rfl
    have htail : (chunks t).tail = rest := by rw [hcc]; rfl
    rw [htail] at hno
    constructor
    · intro hne
      rw [hhead] at hne
      rw [hp, hhead, if_neg (by simpa [List.isEmpty_iff] using hne)]
      obtain ⟨r', hr'⟩ := foldl_insertChunk_head rest (("Introduction").data)
        (strip first) [] hno
      rw [hr']
      rfl
    · intro hemp
      rw [hhead] at hemp
      rw [hp, if_pos (by simp [hemp])]
      exact foldl_insertChunk_not_mem rest [] (("Introduction").data) (by simp) hno
  · intro t ht
    exact parse_no_header ht

/-- Claim C5, witness: the amended theorem applied to "intro\n# A\nfoo". -/
theorem C5_intro_documentation_witness :
    (parseSections (("intro\n# A\nfoo").data)).head? =
      some ((("Introduction").data : Str), (("intro").data : Str)) :=
  (C5_intro_documentation.1 (("intro\n# A\nfoo").data) (by decide) (by decide)).1
    (by decide)

/-- Claim C6: for every section map and query, the combined result list is the
title-match pass followed by the body-match pass, each pass being the in-order
filter of the sections by its own match condition (so insertion order governs
inside each pass, and a section matching both ways appears once per pass, as
the concrete both-way match "Alpha"/"alpha body" shows). -/
theorem C6_two_passes :
    (∀ s q, searchResults s q =
      ((s.filter fun p => substrOf (lower q) (lower p.1)).map
        fun p => (p.1, titleSnippet p.1)) ++
      ((s.filter fun p =>
          substrOf (lower q) (lower p.2) && !(matchingLines (lower q) p.2).isEmpty).map
        fun p => (p.1, bodySnippet (lower q) p.1 p.2))) ∧
    searchResults [(("Alpha").data, ("alpha body").data)] (("alpha").data) =
      [(("Alpha").data, titleSnippet (("Alpha").data)),
       (("Alpha").data,
        bodySnippet (("alpha").data) (("Alpha").data) (("alpha body").data))] := by
  constructor
  · intro s q
    rw [searchResults, titleResults_eq, bodyResults_eq]
  · decide

/-- Claim C7: overview and search are total over every section map (including
the empty one) and every query string, and always return a non-empty
descriptive string; in this embedding both are total functions by
construction, so no invocation can raise. -/
theorem C7_total (s : List (Str × Str)) (q : Str) :
    get_overview s ≠ [] ∧ search s q ≠ [] := by
  constructor
  · cases s with
    | nil => exact List.cons_ne_nil _ _
    | cons p rest => exact List.cons_ne_nil _ _
  · cases s with
    | nil => exact List.cons_ne_nil _ _
    | cons p rest =>
      simp only [search]
      split
      · exact List.cons_ne_nil _ _
      · exact List.cons_ne_nil _ _

/-- Claim C7, witness: totality at the empty section map and a concrete query. -/
theorem C7_total_witness :
    get_overview [] ≠ [] ∧ search [] (("x").data) ≠ [] :=
  C7_total [] (("x").data)

/-- Claim C8: after construction exactly one invariant holds — on a load
failure the map is exactly the one synthetic "Error" section carrying the
failure message, and on success every section body is a trimmed contiguous
substring of the original raw text (it occurs between some prefix and suffix,
and stripping it again changes nothing). -/
theorem C8_construction_invariant :
    (∀ p, _load_and_parse (LoadOutcome.notFound p) = [(("Error").data, notFoundBody)]) ∧
    (∀ m, _load_and_parse (LoadOutcome.readError m) =
      [(("Error").data, readErrorBody m)]) ∧
    (∀ t kv, kv ∈ _load_and_parse (LoadOutcome.content t) →
      (∃ u w, t = u ++ kv.2 ++ w) ∧ strip kv.2 = kv.2) :=
  ⟨fun _ => rfl, fun _ => rfl, fun t kv h => parse_bodies t kv h⟩

/-- Claim C8, witness: the invariant applied to the loaded text "# A\nbody"
and its parsed section ("A", "body"). -/
theorem C8_construction_invariant_witness :
    (∃ u w, (("# A\nbody").data : Str) = u ++ (("body").data : Str) ++ w) ∧
    strip (("body").data) = ("body").data :=
  C8_construction_invariant.2.2 (("# A\nbody").data)
    ((("A").data, ("body").data)) (by decide)

/-- Claim C9: insertion into the ordered dict is last-write-wins on values
while iteration order keeps each key at its first occurrence: looking up a key
after all assignments returns the value of its last assignment, the final key
sequence is the first-occurrence fold, the parsing loop is exactly such an
assignment fold, and the raw text "# A\n1\n# B\n2\n# A\n3" parses to
{"A": "3", "B": "2"} with "A" still first. -/
theorem C9_duplicate_titles :
    (∀ es m k, dictFind (insertAll m es) k =
      match lastAssoc es k with
      | some v => some v
      | none => dictFind m k) ∧
    (∀ es m, (insertAll m es).map Prod.fst =
      List.foldl addKey (m.map Prod.fst) (es.map Prod.fst)) ∧
    (∀ cs m, List.foldl insertChunk m cs =
      insertAll m (cs.map fun c => (chunkTitle c, chunkBody c))) ∧
    parseSections (("# A\n1\n# B\n2\n# A\n3").data) =
      [(("A").data, ("3").data), (("B").data, ("2").data)] :=
  ⟨fun es m k => dictFind_insertAll es m k,
   fun es m => insertAll_keys es m,
   fun cs m => foldl_insertChunk_eq_insertAll cs m,
   by decide⟩

/-- Claim C10: whatever the load outcome (success, missing file, or read
error), the constructed section map is non-empty, so the "No documentation
sections available." branch of overview and the "No documentation available to
search." branch of search can never be returned by a constructed parser. -/
theorem C10_nonempty_sections (o : LoadOutcome) (q : Str) :
    _load_and_parse o ≠ [] ∧
    get_overview (_load_and_parse o) ≠ ("No documentation sections available.").data ∧
    search (_load_and_parse o) q ≠ ("No documentation available to search.").data := by
  have hne : _load_and_parse o ≠ [] := by
    cases o with
    | notFound p => simp [_load_and_parse]
    | readError m => simp [_load_and_parse]
    | content t => exact parseSections_ne_nil t
  refine ⟨hne, ?_, ?_⟩
  · cases hs : _load_and_parse o with
    | nil => exact absurd hs hne
    | cons p rest =>
      apply take_ne_imp_ne 1
      intro hcontra
      have h1 : (get_overview (p :: rest)).take 1 = ("A").data := rfl
      rw [hcontra] at h1
      exact absurd h1 (by decide)
  · cases hs : _load_and_parse o with
    | nil => exact absurd hs hne
    | cons p rest =>
      simp only [search]
      split
      · apply take_ne_imp_ne 4
        intro hcontra
        have h1 : ((("No results found for '").data ++ q ++
            ("' in the documentation.").data)).take 4 = ("No r").data := rfl
        rw [hcontra] at h1
        exact absurd h1 (by decide)
      · apply take_ne_imp_ne 1
        intro hcontra
        have h1 : (searchHeading q ++
            formatResults 1 ((searchResults (p :: rest) q).take 5) ++
            (if 5 < (searchResults (p :: rest) q).length then
              omittedNote ((searchResults (p :: rest) q).length - 5)
             else [])).take 1 = ("S").data := rfl
        rw [hcontra] at h1
        exact absurd h1 (by decide)

/-- Claim C10, witness: the unreachability statement at a concrete outcome. -/
theorem C10_nonempty_sections_witness :
    _load_and_parse (LoadOutcome.notFound []) ≠ [] ∧
    get_overview (_load_and_parse (LoadOutcome.notFound [])) ≠
      ("No documentation sections available.").data ∧
    search (_load_and_parse (LoadOutcome.notFound [])) [] ≠
      ("No documentation available to search.").data :=
  C10_nonempty_sections (LoadOutcome.notFound []) []
